import Mathlib

/-!
Verification of the columnar object-store adapter `PandasAzureWriter`
(`helioscta_dash/gas/pricing/term_bible/pandas_azure_writer.py`).

Shallow embedding conventions:

* A pandas `DataFrame` is an ordered list of column names together with a
  row-major list of rows; every cell value is kept in its rendered string
  form (the form in which partition values are interpolated into blob
  paths and recovered from them).
* The Azure blob container is an association list from blob name to the
  table stored in that blob.  The `AzureChunkStorageClient` collaborator
  comes from the external `helioscta_python` package; its operations
  (`upload_file`, `download_blob`, `blob_exists`, `list_blobs`) are
  modelled from the spec's Object Store Client contract.  The parquet
  codec (`df.to_parquet` / `pd.read_parquet`) is modelled as the identity
  between a table and its stored form, per the spec's Columnar Codec
  contract `decode(encode(table)) = table`; the compression codec is an
  opaque pass-through that does not change the decoded table.  A blob's
  URL is identified with its blob name.
* Python string comparison (used by `sorted` and by pandas group-key
  sorting) is lexicographic by code point; it is embedded as an
  executable boolean comparison on the underlying character lists.
* Python's `//` is floor division (`Int.fdiv`); `df.iloc[a:b]` follows
  Python slice normalization of possibly-negative bounds.
-/

namespace PandasAzureWriter

/-- A pandas DataFrame: ordered column names plus row-major cells, every
cell in its rendered string form. -/
structure DataFrame where
  cols : List String
  rows : List (List String)
deriving DecidableEq

/-- Modelled from the spec: the Object Store Client's container state, an
association from blob name to the table decoded from that blob's bytes
(codec modelled as the identity).  Listing order is the association-list
order; the spec treats listing order as unspecified. -/
abbrev Storage := List (String × DataFrame)

/-- Error taxonomy of the adapter (spec section 7), plus the two raw
Python failures the chunked writer can actually produce:
`zeroDivision` for `chunk_size = 0` and `noGroupKeys` for
`groupby([])`. -/
inductive WriterError where
  | validation (col : String)
  | zeroDivision
  | notFound (path : String)
  | conflict (path : String)
  | noGroupKeys
deriving DecidableEq

instance {ε α : Type} [DecidableEq ε] [DecidableEq α] : DecidableEq (Except ε α) := fun x y =>
  match x, y with
  | .ok a, .ok b =>
      if h : a = b then .isTrue (by rw [h]) else .isFalse (fun hc => by cases hc; exact h rfl)
  | .error a, .error b =>
      if h : a = b then .isTrue (by rw [h]) else .isFalse (fun hc => by cases hc; exact h rfl)
  | .ok _, .error _ => .isFalse (fun hc => by cases hc)
  | .error _, .ok _ => .isFalse (fun hc => by cases hc)

/-- Code-point comparison of characters, the primitive of Python string
comparison. -/
def charLt (a b : Char) : Bool :=
  decide (a.toNat < b.toNat)

/-- Lexicographic strict comparison of lists from a strict comparison of
elements: Python's comparison of strings (over characters) and of tuples
(over components). -/
def lexLtb (lt : α → α → Bool) : List α → List α → Bool
  | _, [] => false
  | [], _ :: _ => true
  | a :: as, b :: bs => lt a b || (!lt b a && lexLtb lt as bs)

/-- Python string `<`, by code point. -/
def strLt (s t : String) : Bool :=
  lexLtb charLt s.data t.data

/-- Python string `<=`. -/
def strLe (s t : String) : Bool :=
  !strLt t s

/-- Python tuple `<` on group keys (componentwise strings). -/
def keyLt (a b : List String) : Bool :=
  lexLtb strLt a b

/-- Python tuple `<=` on group keys. -/
def keyLe (a b : List String) : Bool :=
  !keyLt b a

/-- The ordering relation used by Python `sorted` on blob-name strings. -/
def strLeR (a b : String) : Prop :=
  strLe a b = true

/-- The ordering relation used by pandas on group keys. -/
def keyLeR (a b : List String) : Prop :=
  keyLe a b = true

instance : DecidableRel strLeR := fun a b =>
  instDecidableEqBool (strLe a b) true

instance : DecidableRel keyLeR := fun a b =>
  instDecidableEqBool (keyLe a b) true

/-- Python `sorted` on a list of blob names (stable, ascending by code
point). -/
def sortStrings (l : List String) : List String :=
  List.insertionSort strLeR l

/-- The ascending enumeration pandas `groupby(..., sort=True)` applies to
the distinct group keys. -/
def sortKeys (l : List (List String)) : List (List String) :=
  List.insertionSort keyLeR l

/-- Python `s.endswith(t)`: `t`'s characters are a suffix of `s`'s. -/
def strEndsWith (s t : String) : Bool :=
  decide (t.data <:+ s.data)

/-- Python `s.startswith(t)` (the client's `name_starts_with` filter):
`t`'s characters are a lead segment of `s`'s. -/
def strStartsWith (s t : String) : Bool :=
  decide (t.data <+: s.data)

/-- Python `format(i, "05d")`: decimal digits of `i`, left-padded with
zeros to width 5 (wider numbers are rendered in full, not truncated). -/
def pad05 (i : Nat) : String :=
  String.mk (List.replicate (5 - (Nat.repr i).length) '0' ++ (Nat.repr i).data)

/-- Extension normalization of `write_parquet` (pandas_azure_writer.py
lines 91-93): append `.parquet` exactly when the caller's name does not
already end in it. -/
def ensure_parquet_ext (blob_name : String) : String :=
  if strEndsWith blob_name ".parquet" then blob_name else blob_name ++ ".parquet"

/-- Modelled from the spec: `AzureChunkStorageClient.blob_exists`. -/
def blob_exists (st : Storage) (blob_name : String) : Bool :=
  (st.lookup blob_name).isSome

/-- Storage update performed by a successful upload: replace the blob in
place if the name is already bound, otherwise add a new binding. -/
def set_blob (st : Storage) (blob_name : String) (df : DataFrame) : Storage :=
  if blob_exists st blob_name then
    st.map (fun p => if p.1 = blob_name then (blob_name, df) else p)
  else
    st ++ [(blob_name, df)]

/-- Modelled from the spec: `AzureChunkStorageClient.upload_file`; with
`overwrite=False` an existing blob makes the client fail (conflict),
otherwise the encoded table is stored under the blob name and its URL
(identified with the name) is returned. -/
def upload_file (st : Storage) (df : DataFrame) (blob_name : String)
    (overwrite : Bool) : Except WriterError Storage :=
  if !overwrite && blob_exists st blob_name then
    .error (.conflict blob_name)
  else
    .ok (set_blob st blob_name df)

/-- Modelled from the spec: `AzureChunkStorageClient.download_blob`,
failing NotFound when no blob has this name. -/
def download_blob (st : Storage) (blob_name : String) :
    Except WriterError DataFrame :=
  match st.lookup blob_name with
  | some df => .ok df
  | none => .error (.notFound blob_name)

/-- Modelled from the spec: `AzureChunkStorageClient.list_blobs` with a
`name_starts_with` filter. -/
def list_blobs (st : Storage) (name_starts : String) : List String :=
  (st.map Prod.fst).filter (fun b => strStartsWith b name_starts)

/-- PandasAzureWriter.write_parquet (lines 65-120): normalize the
extension, optionally splice a timestamp (injected here as `now`) before
the extension, encode with the requested compression codec, upload, and
return the blob URL.  `engine` and extra codec kwargs are opaque codec
pass-throughs and are not modelled. -/
def write_parquet (st : Storage) (df : DataFrame) (blob_name : String)
    (compression : String) (overwrite : Bool)
    (include_timestamp : Bool) (now : String) :
    Except WriterError (Storage × String) :=
  let b1 := ensure_parquet_ext blob_name
  let b2 := if include_timestamp then (b1.dropRight 8) ++ "_" ++ now ++ ".parquet" else b1
  (upload_file st df b2 overwrite).map (fun st2 => (st2, b2))

/-- Value of column `c` in a row, with the table's column list giving the
positions (`row[c]` for an aligned row). -/
def cell_at (cols row : List String) (c : String) : String :=
  ((cols.zip row).lookup c).getD ""

/-- The group key pandas forms for a row: the tuple of its values at the
partition columns, in `partition_cols` order. -/
def key_of (cols pcols : List String) (row : List String) : List String :=
  pcols.map (cell_at cols row)

/-- Blob name of one partition group (line 168):
`base/col1=val1/.../colN=valN/data.parquet`. -/
def partition_path (base : String) (pcols key : List String) : String :=
  base ++ "/" ++
    String.intercalate "/" ((pcols.zip key).map (fun p => p.1 ++ "=" ++ p.2)) ++
    "/data.parquet"

/-- pandas `df.drop(columns=pcols)`: remove the named columns, keeping
the order of the remaining ones, and the corresponding cells of every
row. -/
def drop_columns (df : DataFrame) (pcols : List String) : DataFrame :=
  ⟨df.cols.filter (fun c => !pcols.contains c),
   df.rows.map (fun r =>
     ((df.cols.zip r).filter (fun q => !pcols.contains q.1)).map Prod.snd)⟩

/-- The rows of one pandas group: the rows whose key equals `key`, in
original order (pandas `groupby` preserves within-group row order). -/
def group_rows (df : DataFrame) (pcols key : List String) : List (List String) :=
  df.rows.filter (fun r => key_of df.cols pcols r == key)

/-- The group keys in the order pandas `groupby(pcols)` (default
`sort=True`) iterates them: the distinct keys in ascending tuple order. -/
def group_keys (df : DataFrame) (pcols : List String) : List (List String) :=
  sortKeys ((df.rows.map (key_of df.cols pcols)).dedup)

/-- PandasAzureWriter.write_parquet_partitioned (lines 122-183): validate
that every partition column exists (ValueError naming the first missing
one, before anything is written), then group by the partition columns
(pandas raises on an empty key list) and write each group, with the
partition columns dropped from the payload, to its partition path. -/
def write_parquet_partitioned (st : Storage) (df : DataFrame)
    (base_blob_path : String) (partition_cols : List String)
    (compression : String) (overwrite : Bool) :
    Except WriterError (Storage × List String) :=
  match partition_cols.find? (fun c => !df.cols.contains c) with
  | some c => .error (.validation c)
  | none =>
    if partition_cols.isEmpty then .error .noGroupKeys
    else
      (group_keys df partition_cols).foldlM
        (fun acc key => do
          let data_to_write :=
            drop_columns ⟨df.cols, group_rows df partition_cols key⟩ partition_cols
          let r ← write_parquet acc.1 data_to_write
            (partition_path base_blob_path partition_cols key)
            compression overwrite false ""
          pure (r.1, acc.2 ++ [r.2]))
        (st, [])

/-- Blob name of chunk `i` (line 219): `base/chunk_{i:05d}.parquet`. -/
def chunk_blob_name (base : String) (i : Nat) : String :=
  base ++ "/chunk_" ++ pad05 i ++ ".parquet"

/-- Python slice-bound normalization for a sequence of `n` elements: a
negative bound counts from the end (clamped at 0), a non-negative bound
is clamped at `n`. -/
def py_index (n : Nat) (i : Int) : Nat :=
  if i < 0 then ((n : Int) + i).toNat else min i.toNat n

/-- Python `l[a:b]` (`df.iloc[a:b]` row slicing). -/
def py_slice (l : List α) (a b : Int) : List α :=
  (l.take (py_index l.length b)).drop (py_index l.length a)

/-- PandasAzureWriter.write_parquet_chunked (lines 185-230): ceiling
division (`ZeroDivisionError` for `chunk_size = 0`, floor division for
negative sizes, exactly as Python's `//`), then one write per chunk
index with the rows `df.iloc[i*chunk_size : min((i+1)*chunk_size, len)]`.
No validation of `chunk_size` is performed. -/
def write_parquet_chunked (st : Storage) (df : DataFrame)
    (base_blob_path : String) (chunk_size : Int)
    (compression : String) (overwrite : Bool) :
    Except WriterError (Storage × List String) :=
  if chunk_size = 0 then .error .zeroDivision
  else
    let n : Int := df.rows.length
    let num_chunks : Int := (n + chunk_size - 1).fdiv chunk_size
    (List.range num_chunks.toNat).foldlM
      (fun acc (i : Nat) => do
        let chunk_df : DataFrame :=
          ⟨df.cols, py_slice df.rows (Int.ofNat i * chunk_size) (min ((Int.ofNat i + 1) * chunk_size) n)⟩
        let r ← write_parquet acc.1 chunk_df (chunk_blob_name base_blob_path i)
          compression overwrite false ""
        pure (r.1, acc.2 ++ [r.2]))
      (st, [])

/-- pandas `pd.concat([a, b], ignore_index=True)` for frames sharing a
column set (the only use in this adapter, per the spec's SchemaMismatch
contract): the first frame's columns, the two row lists appended. -/
def pd_concat (a b : DataFrame) : DataFrame :=
  ⟨a.cols, a.rows ++ b.rows⟩

/-- PandasAzureWriter.append_parquet (lines 232-271): if a blob exists at
the caller's raw name, read it and concatenate existing rows before the
new ones; then write the result through `write_parquet` with
`overwrite=True` (which normalizes the extension). -/
def append_parquet (st : Storage) (df : DataFrame) (blob_name : String)
    (compression : String) : Except WriterError (Storage × String) :=
  match st.lookup blob_name with
  | some existing_df =>
      write_parquet st (pd_concat existing_df df) blob_name compression true false ""
  | none =>
      write_parquet st df blob_name compression true false ""

/-- PandasAzureWriter.read_parquet (lines 273-303): download the blob
(NotFound if absent) and decode it.  The `columns` / `filters` arguments
are opaque codec pass-throughs and are not modelled. -/
def read_parquet (st : Storage) (blob_name : String) :
    Except WriterError DataFrame :=
  match st.lookup blob_name with
  | some df => .ok df
  | none => .error (.notFound blob_name)

/-- pandas `pd.concat(dfs, ignore_index=True)` over a nonempty list of
frames sharing a column set. -/
def pd_concat_all (dfs : List DataFrame) : DataFrame :=
  ⟨((dfs.head?).map DataFrame.cols).getD [], (dfs.map DataFrame.rows).flatten⟩

/-- PandasAzureWriter.read_parquet_chunked (lines 351-385): list the
blobs under `base_blob_path`, keep those ending in `.parquet`, sort them
lexically, fail if none remain, read each (applying the optional
per-chunk transform), and concatenate in sorted order. -/
def read_parquet_chunked (st : Storage) (base_blob_path : String)
    (process_func : Option (DataFrame → DataFrame)) :
    Except WriterError DataFrame :=
  let chunk_blobs :=
    sortStrings ((list_blobs st base_blob_path).filter (fun b => strEndsWith b ".parquet"))
  if chunk_blobs.isEmpty then .error (.notFound base_blob_path)
  else do
    let dfs ← chunk_blobs.mapM (fun b => do
      let df ← read_parquet st b
      match process_func with
      | some f => pure (f df)
      | none => pure df)
    pure (pd_concat_all dfs)

/-- The compression codecs the writer documents as supported (docstring
line 81 and spec section 4.1). -/
def supported_compression : List String :=
  ["snappy", "gzip", "brotli", "lz4", "zstd", "none"]

/-- The sequence of (blob name, chunk table) writes a chunked write of
`df` performs for a positive chunk size `kk`, phrased as the spec states
it: `ceil(n / kk)` chunks, chunk `i` holding rows `[i*kk, (i+1)*kk)` of
the table. -/
def chunk_plan (df : DataFrame) (base : String) (kk : Nat) :
    List (String × DataFrame) :=
  (List.range ((df.rows.length + kk - 1) / kk)).map
    (fun i => (chunk_blob_name base i, ⟨df.cols, (df.rows.drop (i * kk)).take kk⟩))

/-- The sequence of (blob name, payload table) writes a partitioned write
of `df` performs: one per distinct key in ascending key order, the
payload being the group's rows with the partition columns dropped. -/
def partition_plan (df : DataFrame) (base : String) (pcols : List String) :
    List (String × DataFrame) :=
  (group_keys df pcols).map (fun key =>
    (partition_path base pcols key,
     drop_columns ⟨df.cols, group_rows df pcols key⟩ pcols))

/-- A row as a record: the multiset of its (column name, value) pairs. -/
def row_rec (cols row : List String) : Multiset (String × String) :=
  (cols.zip row : Multiset (String × String))

/-- Big-endian decimal rendering of a natural number (the mathematical
normal form of `Nat.repr`). -/
def digitsBE (n : Nat) : List Char :=
  if h : n < 10 then [Nat.digitChar n]
  else digitsBE (n / 10) ++ [Nat.digitChar (n % 10)]
decreasing_by exact Nat.div_lt_self (by omega) (by omega)

/-- The low `w` decimal digits of `n`, zero-padded to exactly width `w`. -/
def padDigits : Nat → Nat → List Char
  | 0, _ => []
  | w + 1, n => padDigits w (n / 10) ++ [Nat.digitChar (n % 10)]

/-! ### Properties of the code-point comparisons -/

theorem charLt_irrefl (a : Char) : charLt a a = false := by
  simp [charLt]

theorem charLt_asymm {a b : Char} (h : charLt a b = true) : charLt b a = false := by
  simp [charLt, Char.toNat] at h ⊢
  omega

theorem charLt_trans {a b c : Char} (h1 : charLt a b = true) (h2 : charLt b c = true) :
    charLt a c = true := by
  simp [charLt, Char.toNat] at h1 h2 ⊢
  omega

theorem charLt_conn {a b : Char} (h1 : charLt a b = false) (h2 : charLt b a = false) :
    a = b := by
  simp [charLt, Char.toNat] at h1 h2
  exact Char.ext (UInt32.ext (by omega))

theorem lexLtb_irrefl (lt : α → α → Bool) (hi : ∀ a, lt a a = false) :
    ∀ l, lexLtb lt l l = false := by
  intro l
  induction l with
  | nil => rfl
  | cons a as ih => simp [lexLtb, hi, ih]

theorem lexLtb_asymm (lt : α → α → Bool)
    (ha : ∀ {a b : α}, lt a b = true → lt b a = false) :
    ∀ {l1 l2 : List α}, lexLtb lt l1 l2 = true → lexLtb lt l2 l1 = false := by
  intro l1
  induction l1 with
  | nil =>
    intro l2 h
    cases l2 with
    | nil => simp [lexLtb] at h
    | cons b bs => simp [lexLtb]
  | cons a as ih =>
    intro l2 h
    cases l2 with
    | nil => simp [lexLtb] at h
    | cons b bs =>
      simp only [lexLtb, Bool.or_eq_true, Bool.and_eq_true, Bool.not_eq_true'] at h
      simp only [lexLtb, Bool.or_eq_false_iff, Bool.and_eq_false_iff, Bool.not_eq_false']
      rcases h with h | ⟨hba, hrec⟩
      · exact ⟨ha h, Or.inl h⟩
      · exact ⟨hba, Or.inr (ih hrec)⟩

theorem lexLtb_conn (lt : α → α → Bool)
    (hc : ∀ {a b : α}, lt a b = false → lt b a = false → a = b) :
    ∀ {l1 l2 : List α}, lexLtb lt l1 l2 = false → lexLtb lt l2 l1 = false → l1 = l2 := by
  intro l1
  induction l1 with
  | nil =>
    intro l2 h1 _
    cases l2 with
    | nil => rfl
    | cons b bs => simp [lexLtb] at h1
  | cons a as ih =>
    intro l2 h1 h2
    cases l2 with
    | nil => simp [lexLtb] at h2
    | cons b bs =>
      simp only [lexLtb, Bool.or_eq_false_iff, Bool.and_eq_false_iff,
        Bool.not_eq_false'] at h1 h2
      obtain ⟨hab, h1r⟩ := h1
      obtain ⟨hba, h2r⟩ := h2
      have hab2 : a = b := hc hab hba
      subst hab2
      rcases h1r with h1r | h1r
      · rw [hab] at h1r; cases h1r
      · rcases h2r with h2r | h2r
        · rw [hab] at h2r; cases h2r
        · rw [ih h1r h2r]

theorem lexLtb_trans (lt : α → α → Bool)
    (ht : ∀ {a b c : α}, lt a b = true → lt b c = true → lt a c = true)
    (hc : ∀ {a b : α}, lt a b = false → lt b a = false → a = b) :
    ∀ {l1 l2 l3 : List α}, lexLtb lt l1 l2 = true → lexLtb lt l2 l3 = true →
      lexLtb lt l1 l3 = true := by
  intro l1
  induction l1 with
  | nil =>
    intro l2 l3 h1 h2
    cases l3 with
    | nil => cases l2 with
      | nil => exact h1
      | cons b bs => simp [lexLtb] at h2
    | cons c cs => simp [lexLtb]
  | cons a as ih =>
    intro l2 l3 h1 h2
    cases l2 with
    | nil => simp [lexLtb] at h1
    | cons b bs =>
      cases l3 with
      | nil => simp [lexLtb] at h2
      | cons c cs =>
        simp only [lexLtb, Bool.or_eq_true, Bool.and_eq_true, Bool.not_eq_true'] at h1 h2 ⊢
        rcases h1 with h1 | ⟨hba, h1r⟩
        · rcases h2 with h2 | ⟨hcb, h2r⟩
          · exact Or.inl (ht h1 h2)
          · cases hbc : lt b c with
            | true => exact Or.inl (ht h1 hbc)
            | false =>
              have hbc2 : b = c := hc hbc hcb
              subst hbc2
              exact Or.inl h1
        · rcases h2 with h2 | ⟨hcb, h2r⟩
          · cases hab : lt a b with
            | true => exact Or.inl (ht hab h2)
            | false =>
              have hab2 : a = b := hc hab hba
              subst hab2
              exact Or.inl h2
          · cases hab : lt a b with
            | true =>
              cases hbc : lt b c with
              | true => exact Or.inl (ht hab hbc)
              | false =>
                have hbc2 : b = c := hc hbc hcb
                subst hbc2
                exact Or.inl hab
            | false =>
              have hab2 : a = b := hc hab hba
              subst hab2
              exact Or.inr ⟨hcb, ih h1r h2r⟩

theorem string_data_inj {s t : String} (h : s.data = t.data) : s = t := by
  cases s
  cases t
  cases h
  rfl

theorem strLt_irrefl (s : String) : strLt s s = false :=
  lexLtb_irrefl charLt charLt_irrefl s.data

theorem strLt_asymm {s t : String} (h : strLt s t = true) : strLt t s = false :=
  lexLtb_asymm charLt (fun h2 => charLt_asymm h2) h

theorem strLt_trans {s t u : String} (h1 : strLt s t = true) (h2 : strLt t u = true) :
    strLt s u = true :=
  lexLtb_trans charLt (fun ha hb => charLt_trans ha hb) (fun ha hb => charLt_conn ha hb) h1 h2

theorem strLt_conn {s t : String} (h1 : strLt s t = false) (h2 : strLt t s = false) :
    s = t :=
  string_data_inj (lexLtb_conn charLt (fun ha hb => charLt_conn ha hb) h1 h2)

theorem keyLt_irrefl (k : List String) : keyLt k k = false :=
  lexLtb_irrefl strLt strLt_irrefl k

theorem keyLt_asymm {a b : List String} (h : keyLt a b = true) : keyLt b a = false :=
  lexLtb_asymm strLt (fun h2 => strLt_asymm h2) h

theorem keyLt_trans {a b c : List String} (h1 : keyLt a b = true) (h2 : keyLt b c = true) :
    keyLt a c = true :=
  lexLtb_trans strLt (fun ha hb => strLt_trans ha hb) (fun ha hb => strLt_conn ha hb) h1 h2

theorem keyLt_conn {a b : List String} (h1 : keyLt a b = false) (h2 : keyLt b a = false) :
    a = b :=
  lexLtb_conn strLt (fun ha hb => strLt_conn ha hb) h1 h2

instance : IsTotal String strLeR := by
  constructor
  intro a b
  unfold strLeR strLe
  cases h : strLt b a with
  | false => exact Or.inl (by simp [h])
  | true => exact Or.inr (by simp [strLt_asymm h])

instance : IsTrans String strLeR := by
  constructor
  intro a b c h1 h2
  unfold strLeR strLe at h1 h2 ⊢
  simp only [Bool.not_eq_true'] at h1 h2 ⊢
  cases h3 : strLt c a with
  | false => rfl
  | true =>
    cases h4 : strLt a b with
    | true => rw [strLt_trans h3 h4] at h2; cases h2
    | false => rw [strLt_conn h4 h1] at h3; rw [h3] at h2; cases h2

instance : IsAntisymm String strLeR := by
  constructor
  intro a b h1 h2
  unfold strLeR strLe at h1 h2
  simp only [Bool.not_eq_true'] at h1 h2
  exact (strLt_conn h2 h1)

instance : IsTotal (List String) keyLeR := by
  constructor
  intro a b
  unfold keyLeR keyLe
  cases h : keyLt b a with
  | false => exact Or.inl (by simp [h])
  | true => exact Or.inr (by simp [keyLt_asymm h])

instance : IsTrans (List String) keyLeR := by
  constructor
  intro a b c h1 h2
  unfold keyLeR keyLe at h1 h2 ⊢
  simp only [Bool.not_eq_true'] at h1 h2 ⊢
  cases h3 : keyLt c a with
  | false => rfl
  | true =>
    cases h4 : keyLt a b with
    | true => rw [keyLt_trans h3 h4] at h2; cases h2
    | false => rw [keyLt_conn h4 h1] at h3; rw [h3] at h2; cases h2

instance : IsAntisymm (List String) keyLeR := by
  constructor
  intro a b h1 h2
  unfold keyLeR keyLe at h1 h2
  simp only [Bool.not_eq_true'] at h1 h2
  exact (keyLt_conn h2 h1)

theorem strLt_of_strLe_of_ne {a b : String} (h1 : strLeR a b) (h2 : a ≠ b) :
    strLt a b = true := by
  unfold strLeR strLe at h1
  simp only [Bool.not_eq_true'] at h1
  cases h : strLt a b with
  | true => rfl
  | false => exact absurd (strLt_conn h h1) h2

theorem keyLt_of_keyLe_of_ne {a b : List String} (h1 : keyLeR a b) (h2 : a ≠ b) :
    keyLt a b = true := by
  unfold keyLeR keyLe at h1
  simp only [Bool.not_eq_true'] at h1
  cases h : keyLt a b with
  | true => rfl
  | false => exact absurd (keyLt_conn h h1) h2

/-! ### Blob-name and extension lemmas -/

theorem strEndsWith_append (x y : String) : strEndsWith (x ++ y) y = true := by
  simp only [strEndsWith, String.data_append, decide_eq_true_eq]
  exact List.suffix_append x.data y.data

theorem strEndsWith_mono (x y s : String) (h : strEndsWith y s = true) :
    strEndsWith (x ++ y) s = true := by
  simp only [strEndsWith, String.data_append, decide_eq_true_eq] at h ⊢
  exact h.trans (List.suffix_append x.data y.data)

theorem strStartsWith_append (x y : String) : strStartsWith (x ++ y) x = true := by
  simp only [strStartsWith, String.data_append, decide_eq_true_eq]
  exact List.prefix_append x.data y.data

theorem ensure_parquet_ext_of_endsWith {p : String}
    (h : strEndsWith p ".parquet" = true) : ensure_parquet_ext p = p := by
  unfold ensure_parquet_ext
  rw [if_pos h]

theorem ensure_parquet_ext_append (x : String) :
    ensure_parquet_ext (x ++ ".parquet") = x ++ ".parquet" :=
  ensure_parquet_ext_of_endsWith (strEndsWith_append x ".parquet")

theorem chunk_blob_name_endsWith (base : String) (i : Nat) :
    strEndsWith (chunk_blob_name base i) ".parquet" = true :=
  strEndsWith_append (base ++ "/chunk_" ++ pad05 i) ".parquet"

theorem partition_path_endsWith (base : String) (pcols key : List String) :
    strEndsWith (partition_path base pcols key) ".parquet" = true := by
  unfold partition_path
  exact strEndsWith_mono _ "/data.parquet" ".parquet" (by decide)

/-! ### Storage lemmas -/

theorem lookup_eq_none_of_not_exists {st : Storage} {b : String}
    (h : blob_exists st b = false) : st.lookup b = none := by
  unfold blob_exists at h
  cases h2 : st.lookup b with
  | none => rfl
  | some v => rw [h2] at h; cases h

theorem set_blob_of_not_exists {st : Storage} {b : String} (df : DataFrame)
    (h : st.lookup b = none) : set_blob st b df = st ++ [(b, df)] := by
  unfold set_blob blob_exists
  rw [h]
  rfl

theorem lookup_set_blob_self (st : Storage) (b : String) (df : DataFrame) :
    (set_blob st b df).lookup b = some df := by
  unfold set_blob
  by_cases h : blob_exists st b = true
  · rw [if_pos h]
    induction st with
    | nil => simp [blob_exists] at h
    | cons p rest ih =>
      obtain ⟨k, v⟩ := p
      by_cases hk : k = b
      · subst hk
        simp only [List.map_cons]
        rw [if_pos trivial]
        simp [List.lookup]
      · have hbk : (b == k) = false := by
          simp [Ne.symm hk]
        simp only [List.map_cons]
        rw [if_neg (by simpa using hk)]
        simp only [List.lookup, hbk]
        apply ih
        unfold blob_exists at h ⊢
        simpa [List.lookup, hbk] using h
  · rw [if_neg h]
    rw [List.lookup_append, lookup_eq_none_of_not_exists (by simpa using h)]
    simp [List.lookup]

/-! ### The shape of one flat write and of the write loops -/

theorem write_parquet_overwrite (st : Storage) (df : DataFrame) (b compression : String) :
    write_parquet st df b compression true false "" =
      .ok (set_blob st (ensure_parquet_ext b) df, ensure_parquet_ext b) := by
  simp [write_parquet, upload_file, Except.map]

theorem foldlM_writes {I : Type}
    (f : Storage × List String → I → Except WriterError (Storage × List String))
    (name : I → String) (frame : I → DataFrame) :
    ∀ (xs : List I),
      (∀ st2 urls i, i ∈ xs → f (st2, urls) i = .ok (set_blob st2 (name i) (frame i), urls ++ [name i])) →
      ∀ (st : Storage) (urls : List String),
        xs.foldlM f (st, urls) =
          .ok (xs.foldl (fun s i => set_blob s (name i) (frame i)) st, urls ++ xs.map name) := by
  intro xs
  induction xs with
  | nil =>
    intro _ st urls
    simp only [List.foldlM_nil, List.foldl_nil, List.map_nil, List.append_nil]
    rfl
  | cons x rest ih =>
    intro h st urls
    rw [List.foldlM_cons, h st urls x (List.mem_cons_self x rest)]
    show rest.foldlM f (set_blob st (name x) (frame x), urls ++ [name x]) = _
    rw [ih (fun st2 u2 i hi => h st2 u2 i (List.mem_cons_of_mem x hi))]
    simp

/-! ### Chunk arithmetic -/

theorem num_chunks_toNat (n : Nat) (k : Int) (hk : 0 < k) :
    (((n : Int) + k - 1).fdiv k).toNat = (n + k.toNat - 1) / k.toNat := by
  have hk1 : 1 ≤ k.toNat := by omega
  have hkeq : ((k.toNat : Nat) : Int) = k := Int.toNat_of_nonneg (le_of_lt hk)
  rw [← hkeq]
  have h1 : (n : Int) + ((k.toNat : Nat) : Int) - 1 = ((n + k.toNat - 1 : Nat) : Int) := by
    push_cast
    omega
  rw [h1, Int.fdiv_eq_tdiv (by positivity) (by positivity)]
  rw [show ((n + k.toNat - 1 : Nat) : Int).tdiv ((k.toNat : Nat) : Int)
      = (((n + k.toNat - 1) / k.toNat : Nat) : Int) from rfl]
  exact Int.toNat_ofNat _

theorem py_slice_chunk (l : List α) (k : Int) (i : Nat) (hk : 0 < k) :
    py_slice l (Int.ofNat i * k) (min ((Int.ofNat i + 1) * k) ((l.length : Nat) : Int)) =
      (l.drop (i * k.toNat)).take k.toNat := by
  have hkeq : ((k.toNat : Nat) : Int) = k := Int.toNat_of_nonneg (le_of_lt hk)
  set kk := k.toNat with hkk
  set n := l.length with hn
  have ha : Int.ofNat i * k = ((i * kk : Nat) : Int) := by
    rw [← hkeq]
    simp only [Int.ofNat_eq_natCast]
    push_cast
    ring
  have hb : min ((Int.ofNat i + 1) * k) ((n : Nat) : Int) = ((min ((i + 1) * kk) n : Nat) : Int) := by
    rw [← hkeq]
    simp only [Int.ofNat_eq_natCast]
    push_cast
    ring_nf
  unfold py_slice py_index
  rw [ha, hb]
  rw [if_neg (by omega), if_neg (by omega)]
  rw [Int.toNat_ofNat, Int.toNat_ofNat]
  have hmin2 : min (min ((i + 1) * kk) n) n = min ((i + 1) * kk) n := by omega
  rw [hmin2]
  by_cases hcase : i * kk ≤ n
  · have hmin3 : min (i * kk) n = i * kk := by omega
    rw [hmin3]
    have htk : l.take (min ((i + 1) * kk) n) = l.take ((i + 1) * kk) := by
      rw [List.take_eq_take]
      omega
    rw [htk, List.drop_take]
    congr 1
    have : (i + 1) * kk = i * kk + kk := by ring
    omega
  · have hmin3 : min (i * kk) n = n := by omega
    rw [hmin3]
    have h1 : List.drop n (l.take (min ((i + 1) * kk) n)) = [] := by
      apply List.drop_eq_nil_of_le
      rw [List.length_take]
      omega
    have h2 : List.drop (i * kk) l = [] := by
      apply List.drop_eq_nil_of_le
      omega
    rw [h1, h2, List.take_nil]

theorem ceil_div_succ (n kk : Nat) (hk : 0 < kk) (hn : 0 < n) :
    (n + kk - 1) / kk = (n - kk + kk - 1) / kk + 1 := by
  rcases le_or_lt n kk with h | h
  · have h1 : n + kk - 1 = (n - 1) + kk := by omega
    rw [h1, Nat.add_div_right _ hk, Nat.div_eq_of_lt (by omega)]
    have h2 : n - kk = 0 := by omega
    rw [h2, Nat.zero_add, Nat.div_eq_of_lt (by omega)]
  · have h1 : n + kk - 1 = (n - 1) + kk := by omega
    have h2 : n - kk + kk - 1 = n - 1 := by omega
    rw [h1, h2, Nat.add_div_right _ hk]

theorem chunk_cover (kk : Nat) (hk : 0 < kk) :
    ∀ (n : Nat) (l : List α), l.length = n →
      ((List.range ((n + kk - 1) / kk)).map (fun i => (l.drop (i * kk)).take kk)).flatten = l := by
  intro n
  induction n using Nat.strong_induction_on with
  | _ n ih =>
    intro l hl
    by_cases h0 : n = 0
    · subst h0
      have hnil : l = [] := List.eq_nil_of_length_eq_zero hl
      subst hnil
      simp
    · rw [ceil_div_succ n kk hk (by omega), List.range_succ_eq_map, List.map_cons,
        List.flatten_cons]
      simp only [Nat.zero_mul, List.drop_zero]
      rw [List.map_map]
      have hfun : ((fun i => (l.drop (i * kk)).take kk) ∘ Nat.succ)
          = (fun i => ((l.drop kk).drop (i * kk)).take kk) := by
        funext i
        simp only [Function.comp, List.drop_drop]
        congr 2
        simp only [Nat.succ_eq_add_one]
        ring
      rw [hfun]
      rw [ih (n - kk) (by omega) (l.drop kk) (by simp [hl])]
      exact List.take_append_drop kk l

/-! ### Decimal rendering: Nat.repr versus structural digit lists -/

theorem str_length_data (s : String) : s.length = s.data.length := by
  cases s
  rfl

theorem toDigitsCore_eq (fuel : Nat) :
    ∀ (n : Nat) (ds : List Char), n < fuel →
      Nat.toDigitsCore 10 fuel n ds = digitsBE n ++ ds := by
  induction fuel with
  | zero => intro n ds h; omega
  | succ f ih =>
    intro n ds h
    simp only [Nat.toDigitsCore]
    by_cases h10 : n / 10 = 0
    · rw [if_pos h10]
      have hn : n < 10 := by omega
      unfold digitsBE
      rw [dif_pos hn]
      rw [Nat.mod_eq_of_lt hn]
      rfl
    · rw [if_neg h10]
      rw [ih (n / 10) (Nat.digitChar (n % 10) :: ds) (by omega)]
      conv_rhs => unfold digitsBE
      rw [dif_neg (by omega)]
      simp

theorem repr_data (n : Nat) : (Nat.repr n).data = digitsBE n := by
  show (Nat.toDigits 10 n).asString.data = digitsBE n
  rw [Nat.toDigits]
  rw [toDigitsCore_eq (n + 1) n [] (Nat.lt_succ_self n)]
  simp [List.asString]

theorem padDigits_length (w : Nat) : ∀ n, (padDigits w n).length = w := by
  induction w with
  | zero => intro n; rfl
  | succ w ih => intro n; simp [padDigits, ih]

theorem padDigits_succ_head (w : Nat) :
    ∀ n, padDigits (w + 1) n =
      Nat.digitChar (n / 10 ^ w % 10) :: padDigits w (n % 10 ^ w) := by
  induction w with
  | zero =>
    intro n
    simp [padDigits]
  | succ w ih =>
    intro n
    rw [show padDigits (w + 1 + 1) n = padDigits (w + 1) (n / 10) ++ [Nat.digitChar (n % 10)] from rfl]
    rw [ih (n / 10)]
    have e1 : n / 10 / 10 ^ w = n / 10 ^ (w + 1) := by
      rw [Nat.div_div_eq_div_mul]
      congr 1
      rw [pow_succ]
      ring
    have e2 : n / 10 % 10 ^ w = n % 10 ^ (w + 1) / 10 := by
      rw [show (10:Nat) ^ (w + 1) = 10 * 10 ^ w from by rw [pow_succ]; ring]
      rw [Nat.mod_mul_right_div_self]
    have e3 : n % 10 = n % 10 ^ (w + 1) % 10 := by
      rw [Nat.mod_mod_of_dvd]
      exact dvd_pow_self 10 (Nat.succ_ne_zero w)
    rw [e1, e2, e3]
    rfl

theorem digitChar_mono :
    ∀ a < 10, ∀ b < 10, a < b → charLt (Nat.digitChar a) (Nat.digitChar b) = true := by
  decide

theorem padDigits_mono (w : Nat) :
    ∀ n m, n < m → m < 10 ^ w →
      lexLtb charLt (padDigits w n) (padDigits w m) = true := by
  induction w with
  | zero =>
    intro n m h1 h2
    simp at h2
    omega
  | succ w ih =>
    intro n m h1 h2
    rw [padDigits_succ_head, padDigits_succ_head]
    have hB : 0 < 10 ^ w := Nat.pos_pow_of_pos w (by norm_num)
    have hdn : n / 10 ^ w ≤ m / 10 ^ w := Nat.div_le_div_right (le_of_lt h1)
    have hdm : m / 10 ^ w < 10 := by
      rw [Nat.div_lt_iff_lt_mul hB]
      calc m < 10 ^ (w + 1) := h2
        _ = 10 ^ w * 10 := pow_succ 10 w
        _ = 10 * 10 ^ w := by ring
    rcases lt_or_eq_of_le hdn with hlt | heq
    · have hhead : charLt (Nat.digitChar (n / 10 ^ w % 10)) (Nat.digitChar (m / 10 ^ w % 10)) = true := by
        rw [Nat.mod_eq_of_lt (lt_of_le_of_lt hdn hdm), Nat.mod_eq_of_lt hdm]
        exact digitChar_mono _ (lt_of_le_of_lt hdn hdm) _ hdm hlt
      simp [lexLtb, hhead]
    · rw [heq]
      simp only [lexLtb, charLt_irrefl, Bool.false_or, Bool.not_false, Bool.true_and]
      apply ih
      · have e1 : 10 ^ w * (n / 10 ^ w) + n % 10 ^ w = n := Nat.div_add_mod n (10 ^ w)
        have e2 : 10 ^ w * (m / 10 ^ w) + m % 10 ^ w = m := Nat.div_add_mod m (10 ^ w)
        rw [heq] at e1
        have h3 : 10 ^ w * (m / 10 ^ w) + n % 10 ^ w < 10 ^ w * (m / 10 ^ w) + m % 10 ^ w := by
          rw [e1, e2]
          exact h1
        exact lt_of_add_lt_add_left h3
      · exact Nat.mod_lt m hB

theorem digitsBE_length_le : ∀ (w n : Nat), n < 10 ^ (w + 1) → (digitsBE n).length ≤ w + 1 := by
  intro w
  induction w with
  | zero =>
    intro n hn
    unfold digitsBE
    rw [dif_pos (by simpa using hn)]
    simp
  | succ w ih =>
    intro n hn
    by_cases h10 : n < 10
    · unfold digitsBE
      rw [dif_pos h10]
      simp
    · unfold digitsBE
      rw [dif_neg h10]
      have h2 : n / 10 < 10 ^ (w + 1) := by
        rw [Nat.div_lt_iff_lt_mul (by norm_num)]
        calc n < 10 ^ (w + 1 + 1) := hn
          _ = 10 ^ (w + 1) * 10 := pow_succ 10 (w + 1)
      have h3 := ih (n / 10) h2
      simp only [List.length_append, List.length_cons, List.length_nil]
      omega

theorem digitsBE_eq_padDigits : ∀ (w n : Nat), 10 ^ w ≤ n → n < 10 ^ (w + 1) →
    digitsBE n = padDigits (w + 1) n := by
  intro w
  induction w with
  | zero =>
    intro n h1 h2
    unfold digitsBE
    rw [dif_pos (by simpa using h2)]
    show _ = padDigits 0 (n / 10) ++ [Nat.digitChar (n % 10)]
    simp [padDigits, Nat.mod_eq_of_lt (by simpa using h2)]
  | succ w ih =>
    intro n h1 h2
    have h10 : ¬ n < 10 := by
      push_neg
      calc (10:Nat) = 10 ^ 1 := (pow_one 10).symm
        _ ≤ 10 ^ (w + 1) := Nat.pow_le_pow_right (by norm_num) (by omega)
        _ ≤ n := h1
    unfold digitsBE
    rw [dif_neg h10]
    have hd1 : 10 ^ w ≤ n / 10 := by
      rw [Nat.le_div_iff_mul_le (by norm_num)]
      calc 10 ^ w * 10 = 10 ^ (w + 1) := (pow_succ 10 w).symm
        _ ≤ n := h1
    have hd2 : n / 10 < 10 ^ (w + 1) := by
      rw [Nat.div_lt_iff_lt_mul (by norm_num)]
      calc n < 10 ^ (w + 1 + 1) := h2
        _ = 10 ^ (w + 1) * 10 := pow_succ 10 (w + 1)
    rw [ih (n / 10) hd1 hd2]
    rfl

theorem padLeft_digitsBE : ∀ (w n : Nat), n < 10 ^ (w + 1) →
    List.replicate (w + 1 - (digitsBE n).length) '0' ++ digitsBE n = padDigits (w + 1) n := by
  intro w
  induction w with
  | zero =>
    intro n hn
    have h10 : n < 10 := by simpa using hn
    unfold digitsBE
    rw [dif_pos h10]
    show List.replicate (1 - 1) '0' ++ [Nat.digitChar n] = padDigits 1 n
    simp [padDigits, Nat.mod_eq_of_lt h10]
  | succ w ih =>
    intro n hn
    by_cases hcase : n < 10 ^ (w + 1)
    · have hlen : (digitsBE n).length ≤ w + 1 := digitsBE_length_le w n hcase
      have hrepl : w + 1 + 1 - (digitsBE n).length = (w + 1 - (digitsBE n).length) + 1 := by
        omega
      rw [hrepl, List.replicate_succ, List.cons_append, ih n hcase]
      conv_rhs => rw [padDigits_succ_head]
      have hz : n / 10 ^ (w + 1) = 0 := Nat.div_eq_of_lt hcase
      rw [hz, Nat.mod_eq_of_lt hcase]
      rfl
    · push_neg at hcase
      rw [digitsBE_eq_padDigits (w + 1) n hcase hn, padDigits_length]
      simp

theorem pad05_data (n : Nat) (hn : n < 100000) : (pad05 n).data = padDigits 5 n := by
  show List.replicate (5 - (Nat.repr n).length) '0' ++ (Nat.repr n).data = padDigits 5 n
  rw [repr_data, str_length_data, repr_data]
  exact padLeft_digitsBE 4 n (by norm_num; exact hn)

theorem pad05_mono {n m : Nat} (h1 : n < m) (h2 : m < 100000) :
    strLt (pad05 n) (pad05 m) = true := by
  unfold strLt
  rw [pad05_data n (lt_trans h1 h2), pad05_data m h2]
  exact padDigits_mono 5 n m h1 (by norm_num; exact h2)

theorem lexLtb_append_same (lt : α → α → Bool) (hi : ∀ a, lt a a = false) :
    ∀ (p x y : List α), lexLtb lt (p ++ x) (p ++ y) = lexLtb lt x y := by
  intro p
  induction p with
  | nil => intro x y; rfl
  | cons c cs ih =>
    intro x y
    simp only [List.cons_append, lexLtb, hi c, Bool.false_or, Bool.not_false, Bool.true_and]
    exact ih x y

theorem lexLtb_append_of_eq_length (lt : α → α → Bool) :
    ∀ (x y s t : List α), x.length = y.length → lexLtb lt x y = true →
      lexLtb lt (x ++ s) (y ++ t) = true := by
  intro x
  induction x with
  | nil =>
    intro y s t hlen h
    cases y with
    | nil => simp [lexLtb] at h
    | cons b bs => simp at hlen
  | cons a as ih =>
    intro y s t hlen h
    cases y with
    | nil => simp at hlen
    | cons b bs =>
      simp only [lexLtb, Bool.or_eq_true, Bool.and_eq_true, Bool.not_eq_true'] at h
      simp only [List.cons_append, lexLtb, Bool.or_eq_true, Bool.and_eq_true,
        Bool.not_eq_true']
      rcases h with h | ⟨hba, hrec⟩
      · exact Or.inl h
      · exact Or.inr ⟨hba, ih bs s t (by simpa using hlen) hrec⟩

theorem chunk_blob_name_mono (base : String) {i j : Nat} (h1 : i < j) (h2 : j < 100000) :
    strLt (chunk_blob_name base i) (chunk_blob_name base j) = true := by
  unfold chunk_blob_name strLt
  simp only [String.data_append]
  rw [List.append_assoc (base.data ++ ("/chunk_").data) ((pad05 i).data) ((".parquet").data)]
  rw [List.append_assoc (base.data ++ ("/chunk_").data) ((pad05 j).data) ((".parquet").data)]
  rw [lexLtb_append_same charLt charLt_irrefl]
  apply lexLtb_append_of_eq_length
  · rw [pad05_data i (lt_trans h1 h2), pad05_data j h2, padDigits_length, padDigits_length]
  · have h3 := pad05_mono h1 h2
    unfold strLt at h3
    exact h3

/-! ### The two write loops as explicit write plans -/

theorem write_parquet_chunked_eq (st : Storage) (df : DataFrame)
    (base compression : String) (k : Int) (hk : 0 < k) :
    write_parquet_chunked st df base k compression true =
      .ok ((chunk_plan df base k.toNat).foldl (fun s p => set_blob s p.1 p.2) st,
           (chunk_plan df base k.toNat).map Prod.fst) := by
  unfold write_parquet_chunked
  rw [if_neg (by omega)]
  rw [foldlM_writes _ (chunk_blob_name base)
    (fun i => ⟨df.cols, py_slice df.rows (Int.ofNat i * k)
      (min ((Int.ofNat i + 1) * k) ((df.rows.length : Nat) : Int))⟩)
    _
    (by
      intro st2 urls i _
      simp only [write_parquet_overwrite,
        ensure_parquet_ext_of_endsWith (chunk_blob_name_endsWith base i)]
      rfl)
    st []]
  rw [num_chunks_toNat df.rows.length k hk]
  have hplan : (List.range ((df.rows.length + k.toNat - 1) / k.toNat)).map
      (fun i => (chunk_blob_name base i,
        (⟨df.cols, py_slice df.rows (Int.ofNat i * k)
          (min ((Int.ofNat i + 1) * k) ((df.rows.length : Nat) : Int))⟩ : DataFrame)))
      = chunk_plan df base k.toNat := by
    unfold chunk_plan
    apply List.map_congr_left
    intro i _
    rw [py_slice_chunk df.rows k i hk]
  rw [← hplan, List.foldl_map, List.map_map]
  rfl

theorem write_parquet_partitioned_eq (st : Storage) (df : DataFrame)
    (base compression : String) (pcols : List String)
    (hval : ∀ c ∈ pcols, c ∈ df.cols) (hne : pcols ≠ []) :
    write_parquet_partitioned st df base pcols compression true =
      .ok ((partition_plan df base pcols).foldl (fun s p => set_blob s p.1 p.2) st,
           (partition_plan df base pcols).map Prod.fst) := by
  unfold write_parquet_partitioned
  have hfind : pcols.find? (fun c => !df.cols.contains c) = none := by
    rw [List.find?_eq_none]
    intro c hc
    have hm : df.cols.contains c = true := List.elem_iff.mpr (hval c hc)
    simp only [hm]
    simp
  rw [hfind]
  rw [if_neg (by simpa [List.isEmpty_iff] using hne)]
  rw [foldlM_writes _ (partition_path base pcols)
    (fun key => drop_columns ⟨df.cols, group_rows df pcols key⟩ pcols)
    _
    (by
      intro st2 urls key _
      simp only [write_parquet_overwrite,
        ensure_parquet_ext_of_endsWith (partition_path_endsWith base pcols key)]
      rfl)
    st []]
  unfold partition_plan
  rw [List.foldl_map, List.map_map]
  rfl

/-! ### Grouping facts -/

theorem group_keys_sorted (df : DataFrame) (pcols : List String) :
    List.Sorted keyLeR (group_keys df pcols) :=
  List.sorted_insertionSort keyLeR _

theorem group_keys_nodup (df : DataFrame) (pcols : List String) :
    (group_keys df pcols).Nodup :=
  ((List.perm_insertionSort keyLeR _).symm).nodup (List.nodup_dedup _)

theorem group_keys_complete (df : DataFrame) (pcols : List String) :
    ∀ r ∈ df.rows, key_of df.cols pcols r ∈ group_keys df pcols := by
  intro r hr
  unfold group_keys sortKeys
  rw [(List.perm_insertionSort keyLeR _).mem_iff]
  rw [List.mem_dedup]
  exact List.mem_map_of_mem _ hr

theorem group_keys_strict_sorted (df : DataFrame) (pcols : List String) :
    List.Pairwise (fun a b => keyLt a b = true) (group_keys df pcols) := by
  have h1 := group_keys_sorted df pcols
  have h2 := group_keys_nodup df pcols
  exact (List.Pairwise.and h1 h2).imp
    (fun hab => keyLt_of_keyLe_of_ne hab.1 hab.2)

theorem group_keys_perm_invariant (df df2 : DataFrame) (pcols : List String)
    (hc : df2.cols = df.cols) (hp : df2.rows.Perm df.rows) :
    group_keys df2 pcols = group_keys df pcols := by
  unfold group_keys sortKeys
  rw [hc]
  refine List.eq_of_perm_of_sorted ?_
    (List.sorted_insertionSort keyLeR _) (List.sorted_insertionSort keyLeR _)
  refine ((List.perm_insertionSort keyLeR _).trans ?_).trans
    (List.perm_insertionSort keyLeR _).symm
  exact ((hp.map (key_of df.cols pcols)).dedup)

theorem filter_or_perm (p q : α → Bool) (l : List α)
    (h : ∀ x ∈ l, ¬(p x = true ∧ q x = true)) :
    (l.filter (fun x => p x || q x)).Perm (l.filter p ++ l.filter q) := by
  induction l with
  | nil => simp
  | cons a as ih =>
    have hd := h a (List.mem_cons_self a as)
    have ihr := ih (fun x hx => h x (List.mem_cons_of_mem a hx))
    by_cases hp : p a = true
    · have hq : q a = false := by
        cases hq2 : q a with
        | false => rfl
        | true => exact absurd ⟨hp, hq2⟩ hd
      simp only [List.filter_cons, hp, hq, Bool.true_or, if_pos, ite_true, ite_false,
        Bool.false_eq_true, List.cons_append]
      exact ihr.cons a
    · have hp2 : p a = false := by simpa using hp
      by_cases hq : q a = true
      · simp only [List.filter_cons, hp2, hq, Bool.false_or, ite_true, ite_false,
          Bool.false_eq_true]
        exact (ihr.cons a).trans List.perm_middle.symm
      · have hq2 : q a = false := by simpa using hq
        simp only [List.filter_cons, hp2, hq2, Bool.or_self, ite_false, Bool.false_eq_true]
        exact ihr

theorem groups_flatten_perm {β : Type} [BEq β] [LawfulBEq β] (key : α → β) :
    ∀ (ks : List β) (rows : List α), ks.Nodup →
      (∀ r ∈ rows, key r ∈ ks) →
      ((ks.map (fun k => rows.filter (fun r => key r == k))).flatten).Perm rows := by
  intro ks
  induction ks with
  | nil =>
    intro rows _ hcov
    cases rows with
    | nil => simp
    | cons r rs => exact absurd (hcov r (List.mem_cons_self r rs)) (by simp)
  | cons k ks ih =>
    intro rows hnd hcov
    simp only [List.map_cons, List.flatten_cons]
    have hnotin : k ∉ ks := (List.nodup_cons.mp hnd).1
    have htailmap : ks.map (fun k2 => rows.filter (fun r => key r == k2))
        = ks.map (fun k2 => (rows.filter (fun r => !(key r == k))).filter (fun r => key r == k2)) := by
      apply List.map_congr_left
      intro k2 hk2
      rw [List.filter_filter]
      apply List.filter_congr
      intro r _
      cases hrk : (key r == k2) with
      | false => rfl
      | true =>
        have : key r = k2 := eq_of_beq hrk
        have hne : ¬(key r == k) = true := by
          simp only [beq_iff_eq, this]
          intro hcon
          rw [hcon] at hk2
          exact hnotin hk2
        simp [Bool.not_eq_true'] at hne
        simp [hne]
    have htail : ((ks.map (fun k2 => rows.filter (fun r => key r == k2))).flatten).Perm
        (rows.filter (fun r => !(key r == k))) := by
      rw [htailmap]
      apply ih
      · exact (List.nodup_cons.mp hnd).2
      · intro r hr
        have hmem := (List.mem_filter.mp hr).1
        have hkr := (List.mem_filter.mp hr).2
        have := hcov r hmem
        rcases List.mem_cons.mp this with h | h
        · rw [h] at hkr
          simp at hkr
        · exact h
    exact (List.Perm.append_left _ htail).trans (List.filter_append_perm _ rows)

/-! ### Row records under column dropping and path re-augmentation -/

theorem filter_fst_eq (cols : List String) :
    ∀ (r : List String) (c : String), cols.Nodup → c ∈ cols → r.length = cols.length →
      (cols.zip r).filter (fun q => q.1 == c) = [(c, cell_at cols r c)] := by
  induction cols with
  | nil => intro r c _ hc _; cases hc
  | cons c0 cs ih =>
    intro r c hnd hc hlen
    cases r with
    | nil => simp at hlen
    | cons v vs =>
      simp only [List.zip_cons_cons, List.filter_cons]
      by_cases he : c0 = c
      · subst he
        have hnotin : c0 ∉ cs := (List.nodup_cons.mp hnd).1
        have htail : (cs.zip vs).filter (fun q => q.1 == c0) = [] := by
          rw [List.filter_eq_nil_iff]
          intro q hq
          have hq1 := (List.of_mem_zip hq).1
          simp only [beq_iff_eq]
          intro heq
          rw [heq] at hq1
          exact hnotin hq1
        simp only [beq_self_eq_true, ite_true, htail]
        unfold cell_at
        simp [List.lookup]
      · have hc2 : c ∈ cs := by
          rcases List.mem_cons.mp hc with h | h
          · exact absurd h.symm he
          · exact h
        have hbe : ((c0 : String) == c) = false := by
          simp [he]
        simp only [hbe, ite_false, Bool.false_eq_true]
        rw [ih vs c (List.nodup_cons.mp hnd).2 hc2 (by simpa using hlen)]
        unfold cell_at
        have hbe2 : ((c : String) == c0) = false := by
          simp [Ne.symm he]
        simp only [List.zip_cons_cons, List.lookup, hbe2]
        rfl

theorem filter_mem_pcols (cols r : List String) (hnd : cols.Nodup)
    (hlen : r.length = cols.length) :
    ∀ (pcols : List String), pcols.Nodup → (∀ c ∈ pcols, c ∈ cols) →
      (((cols.zip r).filter (fun q => pcols.contains q.1) : List (String × String)) :
          Multiset (String × String)) =
        ↑(pcols.map (fun c => (c, cell_at cols r c))) := by
  intro pcols
  induction pcols with
  | nil =>
    intro _ _
    simp [List.contains]
  | cons c ps ih =>
    intro hpnd hsub
    have hfsplit : ((cols.zip r).filter (fun q => (c :: ps).contains q.1)).Perm
        ((cols.zip r).filter (fun q => q.1 == c) ++ (cols.zip r).filter (fun q => ps.contains q.1)) := by
      have hcong : (cols.zip r).filter (fun q => (c :: ps).contains q.1)
          = (cols.zip r).filter (fun q => (q.1 == c) || ps.contains q.1) := by
        apply List.filter_congr
        intro q _
        rw [List.contains_cons]
      rw [hcong]
      apply filter_or_perm
      intro q _
      rintro ⟨h1, h2⟩
      have : q.1 = c := eq_of_beq h1
      rw [this] at h2
      have : c ∈ ps := by simpa using h2
      exact (List.nodup_cons.mp hpnd).1 this
    rw [Multiset.coe_eq_coe.mpr hfsplit]
    rw [← Multiset.coe_add]
    rw [filter_fst_eq cols r c hnd (hsub c (List.mem_cons_self c ps)) hlen]
    rw [ih (List.nodup_cons.mp hpnd).2 (fun c2 h2 => hsub c2 (List.mem_cons_of_mem c h2))]
    simp

theorem payload_zip (cols r pcols : List String) (hlen : r.length = cols.length) :
    (cols.filter (fun c => !pcols.contains c)).zip
        (((cols.zip r).filter (fun q => !pcols.contains q.1)).map Prod.snd) =
      (cols.zip r).filter (fun q => !pcols.contains q.1) := by
  have h1 : cols.filter (fun c => !pcols.contains c)
      = ((cols.zip r).filter (fun q => !pcols.contains q.1)).map Prod.fst := by
    have h2 := @List.map_filter (String × String) String
      (fun c => !pcols.contains c) Prod.fst (cols.zip r)
    rw [List.map_fst_zip cols r (by omega)] at h2
    rw [h2]
    rfl
  rw [h1]
  have h3 := List.zip_unzip ((cols.zip r).filter (fun q => !pcols.contains q.1))
  rw [List.unzip_eq_map] at h3
  exact h3

theorem row_record_split (cols r pcols key : List String)
    (hnd : cols.Nodup) (hpnd : pcols.Nodup) (hsub : ∀ c ∈ pcols, c ∈ cols)
    (hlen : r.length = cols.length) (hkey : key_of cols pcols r = key) :
    row_rec (cols.filter (fun c => !pcols.contains c))
        (((cols.zip r).filter (fun q => !pcols.contains q.1)).map Prod.snd)
      + (↑(pcols.zip key) : Multiset (String × String)) = row_rec cols r := by
  unfold row_rec
  rw [payload_zip cols r pcols hlen]
  subst hkey
  have hz : ∀ (l : List String) (f : String → String),
      l.zip (l.map f) = l.map (fun c => (c, f c)) := by
    intro l f
    induction l with
    | nil => rfl
    | cons c cs ih => simp [ih]
  unfold key_of
  rw [hz]
  rw [← filter_mem_pcols cols r hnd hlen pcols hpnd hsub]
  rw [Multiset.coe_add]
  rw [Multiset.coe_eq_coe]
  exact (List.perm_append_comm).trans (List.filter_append_perm _ _)

/-! ### Reading back a freshly written chunk sequence -/

theorem foldl_set_blob_fresh :
    ∀ (pairs : List (String × DataFrame)) (acc : Storage),
      (∀ p ∈ pairs, acc.lookup p.1 = none) → (pairs.map Prod.fst).Nodup →
      pairs.foldl (fun s p => set_blob s p.1 p.2) acc = acc ++ pairs := by
  intro pairs
  induction pairs with
  | nil =>
    intro acc _ _
    simp
  | cons p ps ih =>
    intro acc hfresh hnd
    simp only [List.foldl_cons]
    rw [set_blob_of_not_exists p.2 (hfresh p (List.mem_cons_self p ps))]
    rw [ih (acc ++ [(p.1, p.2)])
      (by
        intro q hq
        rw [List.lookup_append, hfresh q (List.mem_cons_of_mem p hq)]
        have hnd2 : p.1 ∉ ps.map Prod.fst ∧ (ps.map Prod.fst).Nodup := by
          rw [List.map_cons] at hnd
          exact List.nodup_cons.mp hnd
        have hne : (q.1 == p.1) = false := by
          have hp1 : q.1 ∈ ps.map Prod.fst := List.mem_map_of_mem _ hq
          simp only [beq_eq_false_iff_ne]
          intro hcon
          rw [hcon] at hp1
          exact hnd2.1 hp1
        simp [List.lookup, hne])
      (by
        rw [List.map_cons] at hnd
        exact (List.nodup_cons.mp hnd).2)]
    simp

theorem lookup_pairs_self :
    ∀ (pairs : List (String × DataFrame)), (pairs.map Prod.fst).Nodup →
      ∀ p ∈ pairs, pairs.lookup p.1 = some p.2 := by
  intro pairs
  induction pairs with
  | nil =>
    intro _ p hp
    cases hp
  | cons q qs ih =>
    intro hnd p hp
    obtain ⟨k, v⟩ := q
    rcases List.mem_cons.mp hp with h | h
    · subst h
      simp [List.lookup]
    · have hnd2 : (k, v).1 ∉ qs.map Prod.fst ∧ (qs.map Prod.fst).Nodup := by
        rw [List.map_cons] at hnd
        exact List.nodup_cons.mp hnd
      have hne : (p.1 == k) = false := by
        have hp1 : p.1 ∈ qs.map Prod.fst := List.mem_map_of_mem _ h
        simp only [beq_eq_false_iff_ne]
        intro hcon
        rw [hcon] at hp1
        exact hnd2.1 hp1
      simp only [List.lookup, hne]
      exact ih hnd2.2 p h

theorem mapM_read_pairs (st : Storage) :
    ∀ (pairs : List (String × DataFrame)),
      (∀ p ∈ pairs, st.lookup p.1 = some p.2) →
      (pairs.map Prod.fst).mapM (fun b => do
          let df ← read_parquet st b
          match (none : Option (DataFrame → DataFrame)) with
          | some f => pure (f df)
          | none => (pure df : Except WriterError DataFrame)) = .ok (pairs.map Prod.snd) := by
  intro pairs
  induction pairs with
  | nil =>
    intro _
    rfl
  | cons p ps ih =>
    intro h
    simp only [List.map_cons]
    rw [List.mapM_cons]
    have hread : read_parquet st p.1 = .ok p.2 := by
      unfold read_parquet
      rw [h p (List.mem_cons_self p ps)]
    rw [hread]
    simp only [ih (fun q hq => h q (List.mem_cons_of_mem p hq))]
    rfl

theorem sortStrings_of_sorted {l : List String} (h : List.Sorted strLeR l) :
    sortStrings l = l :=
  List.Sorted.insertionSort_eq h

theorem chunk_blob_name_startsWith (base : String) (i : Nat) :
    strStartsWith (chunk_blob_name base i) base = true := by
  unfold chunk_blob_name strStartsWith
  simp only [String.data_append, decide_eq_true_eq, List.append_assoc]
  exact List.prefix_append _ _

/-! ### Claims -/

/-- C1, counterexample: `write_parquet_chunked` performs no `chunk_size`
validation at all.  At the concrete input `chunk_size = -1` on a one-row
table, the claimed ValidationError is not raised — the call returns
normally — and one blob write (an empty chunk at `base/chunk_00000.parquet`)
is performed, refuting both "fails fast with a ValidationError" and
"performs zero blob writes". -/
theorem claim_C1_counterexample :
    write_parquet_chunked [] ⟨["v"], [["a"]]⟩ "base" (-1) "snappy" true =
      .ok ([("base/chunk_00000.parquet", ⟨["v"], []⟩)], ["base/chunk_00000.parquet"])
    ∧ ∀ e : WriterError,
        write_parquet_chunked [] ⟨["v"], [["a"]]⟩ "base" (-1) "snappy" true ≠ .error e := by
  have h1 : write_parquet_chunked [] ⟨["v"], [["a"]]⟩ "base" (-1) "snappy" true =
      .ok ([("base/chunk_00000.parquet", ⟨["v"], []⟩)], ["base/chunk_00000.parquet"]) := by
    decide
  exact ⟨h1, fun e hcon => Except.noConfusion (h1.symm.trans hcon)⟩

/-- C1, amended: `write_parquet_chunked` does not validate `chunk_size`.
For `chunk_size = 0` it fails with Python's ZeroDivisionError (raised at the
ceiling division, before any blob write); for negative `chunk_size` it does
not fail at all — it returns normally (and, as the counterexample shows, can
even perform empty-chunk writes). -/
theorem claim_C1_amended :
    (∀ (st : Storage) (df : DataFrame) (base compression : String) (overwrite : Bool),
        write_parquet_chunked st df base 0 compression overwrite = .error .zeroDivision)
    ∧ (∀ (st : Storage) (df : DataFrame) (base compression : String) (k : Int), k < 0 →
        ∃ out, write_parquet_chunked st df base k compression true = .ok out) := by
  constructor
  · intro st df base compression overwrite
    unfold write_parquet_chunked
    rw [if_pos rfl]
  · intro st df base compression k hk
    unfold write_parquet_chunked
    rw [if_neg (by omega)]
    rw [foldlM_writes _ (chunk_blob_name base)
      (fun i => ⟨df.cols, py_slice df.rows (Int.ofNat i * k)
        (min ((Int.ofNat i + 1) * k) ((df.rows.length : Nat) : Int))⟩)
      _
      (by
        intro st2 urls i _
        simp only [write_parquet_overwrite,
          ensure_parquet_ext_of_endsWith (chunk_blob_name_endsWith base i)]
        rfl)
      st []]
    exact ⟨_, rfl⟩

theorem claim_C1_amended_witness :
    (-1 : Int) < 0 ∧
      ∃ out, write_parquet_chunked [] ⟨["v"], [["a"]]⟩ "b" (-1) "snappy" true = .ok out :=
  ⟨by decide, claim_C1_amended.2 [] ⟨["v"], [["a"]]⟩ "b" "snappy" (-1) (by decide)⟩

/-- C2: for every table and chunk size k > 0, the chunked write performs
exactly ceil(n/k) blob writes; chunk i goes to `base/chunk_{i:05d}.parquet`
and holds exactly rows [i*k, min((i+1)*k, n)) in original order; the URL
list follows ascending index order; concatenating the chunk payloads in
index order reproduces the table's rows; a zero-row table yields an empty
write plan and URL list. -/
theorem claim_C2 (st : Storage) (df : DataFrame) (base compression : String)
    (k : Int) (hk : 0 < k) :
    write_parquet_chunked st df base k compression true =
      .ok ((chunk_plan df base k.toNat).foldl (fun s p => set_blob s p.1 p.2) st,
           (chunk_plan df base k.toNat).map Prod.fst)
    ∧ (chunk_plan df base k.toNat).length = (df.rows.length + k.toNat - 1) / k.toNat
    ∧ ((chunk_plan df base k.toNat).map (fun p => p.2.rows)).flatten = df.rows
    ∧ (df.rows = [] → chunk_plan df base k.toNat = []) := by
  refine ⟨write_parquet_chunked_eq st df base compression k hk, ?_, ?_, ?_⟩
  · unfold chunk_plan
    simp
  · unfold chunk_plan
    rw [List.map_map]
    rw [show ((fun p => DataFrame.rows (Prod.snd p)) ∘
        (fun i => (chunk_blob_name base i,
          (⟨df.cols, (df.rows.drop (i * k.toNat)).take k.toNat⟩ : DataFrame))))
        = fun i => (df.rows.drop (i * k.toNat)).take k.toNat from rfl]
    exact chunk_cover k.toNat (by omega) df.rows.length df.rows rfl
  · intro h
    unfold chunk_plan
    rw [h]
    rw [show (([] : List (List String)).length + k.toNat - 1) / k.toNat = 0 from by
      simp only [List.length_nil, Nat.zero_add]
      exact Nat.div_eq_of_lt (by omega)]
    rfl

theorem claim_C2_witness :
    (0 : Int) < 2 ∧
      ((chunk_plan ⟨["a"], [["1"], ["2"], ["3"]]⟩ "b" (2 : Int).toNat).map
          (fun p => p.2.rows)).flatten = (DataFrame.mk ["a"] [["1"], ["2"], ["3"]]).rows :=
  ⟨by decide, (claim_C2 [] ⟨["a"], [["1"], ["2"], ["3"]]⟩ "b" "snappy" 2 (by decide)).2.2.1⟩

/-- C4: appending to a path with no existing blob is literally a fresh flat
write with overwrite on; appending where a blob exists at the raw path (and
its column set matches, the case the adapter's concat contract covers)
stores, at the extension-normalized path, the existing rows followed by the
new rows, each side's internal order preserved. -/
theorem claim_C4 (st : Storage) (df existing : DataFrame) (p compression : String) :
    (st.lookup p = none →
      append_parquet st df p compression = write_parquet st df p compression true false "")
    ∧ (st.lookup p = some existing → existing.cols = df.cols →
      append_parquet st df p compression =
        .ok (set_blob st (ensure_parquet_ext p) ⟨df.cols, existing.rows ++ df.rows⟩,
             ensure_parquet_ext p)) := by
  constructor
  · intro h
    unfold append_parquet
    rw [h]
  · intro h hcols
    unfold append_parquet
    rw [h]
    show write_parquet st (pd_concat existing df) p compression true false "" = _
    rw [write_parquet_overwrite]
    unfold pd_concat
    rw [hcols]

theorem claim_C4_witness :
    (([] : Storage).lookup "p.parquet" = none ∧
      append_parquet [] ⟨["v"], [["new"]]⟩ "p.parquet" "snappy" =
        write_parquet [] ⟨["v"], [["new"]]⟩ "p.parquet" "snappy" true false "")
    ∧ (([("p.parquet", (⟨["v"], [["old"]]⟩ : DataFrame))] : Storage).lookup "p.parquet" =
          some ⟨["v"], [["old"]]⟩ ∧
        append_parquet [("p.parquet", ⟨["v"], [["old"]]⟩)] ⟨["v"], [["new"]]⟩ "p.parquet" "snappy" =
          .ok (set_blob [("p.parquet", ⟨["v"], [["old"]]⟩)] (ensure_parquet_ext "p.parquet")
                ⟨["v"], [["old"], ["new"]]⟩, ensure_parquet_ext "p.parquet")) :=
  ⟨⟨by decide, (claim_C4 [] ⟨["v"], [["new"]]⟩ ⟨[], []⟩ "p.parquet" "snappy").1 (by decide)⟩,
   ⟨by decide,
    (claim_C4 [("p.parquet", ⟨["v"], [["old"]]⟩)] ⟨["v"], [["new"]]⟩ ⟨["v"], [["old"]]⟩
      "p.parquet" "snappy").2 (by decide) (by decide)⟩⟩

/-- C5: for every table, path and supported compression codec, a flat write
stores the table unchanged at the extension-normalized path it returns, and
reading that path back yields a table equal to the input under column-order
and value equality with row order preserved (the parquet codec itself is
the spec's Columnar Codec collaborator, modelled as the identity). -/
theorem claim_C5 (st : Storage) (df : DataFrame) (p compression : String)
    (h : compression ∈ supported_compression) :
    write_parquet st df p compression true false "" =
      .ok (set_blob st (ensure_parquet_ext p) df, ensure_parquet_ext p)
    ∧ read_parquet (set_blob st (ensure_parquet_ext p) df) (ensure_parquet_ext p) = .ok df := by
  refine ⟨write_parquet_overwrite st df p compression, ?_⟩
  unfold read_parquet
  rw [lookup_set_blob_self]

theorem claim_C5_witness :
    "snappy" ∈ supported_compression ∧
      read_parquet (set_blob [] (ensure_parquet_ext "x") ⟨["a"], [["1"]]⟩)
        (ensure_parquet_ext "x") = .ok ⟨["a"], [["1"]]⟩ :=
  ⟨by decide, (claim_C5 [] ⟨["a"], [["1"]]⟩ "x" "snappy" (by decide)).2⟩

/-- C6: a partitioned write whose partition column list names a column
absent from the table fails with the validation error (naming the first
missing column) raised by the pre-write check, before any grouping or blob
write happens. -/
theorem claim_C6 (st : Storage) (df : DataFrame) (base compression : String)
    (overwrite : Bool) (pcols : List String) (c : String)
    (h1 : c ∈ pcols) (h2 : df.cols.contains c = false) :
    ∃ c2, c2 ∈ pcols ∧ df.cols.contains c2 = false ∧
      write_parquet_partitioned st df base pcols compression overwrite =
        .error (.validation c2) := by
  have hsome : (pcols.find? (fun c2 => !df.cols.contains c2)).isSome := by
    rw [List.find?_isSome]
    exact ⟨c, h1, by rw [h2]; rfl⟩
  obtain ⟨c2, hc2⟩ := Option.isSome_iff_exists.mp hsome
  have hmem := List.mem_of_find?_eq_some hc2
  have hprop := List.find?_some hc2
  refine ⟨c2, hmem, by simpa using hprop, ?_⟩
  unfold write_parquet_partitioned
  rw [hc2]

theorem claim_C6_witness :
    "month" ∈ ["month"] ∧ (DataFrame.mk ["year"] [["2023"]]).cols.contains "month" = false ∧
      ∃ c2, c2 ∈ ["month"] ∧ (DataFrame.mk ["year"] [["2023"]]).cols.contains c2 = false ∧
        write_parquet_partitioned [] ⟨["year"], [["2023"]]⟩ "base" ["month"] "snappy" true =
          .error (.validation c2) :=
  ⟨by decide, by decide,
   claim_C6 [] ⟨["year"], [["2023"]]⟩ "base" "snappy" true ["month"] "month"
     (by decide) (by decide)⟩

/-- C7: extension normalization is idempotent — `write_flat(T, x ++ ".parquet")`
and `write_flat(T, x)` run identically (same final blob path, same stored
table) whenever `x` itself does not already carry the extension, and a path
already ending in `.parquet` is left unchanged (never doubled). -/
theorem claim_C7 (st : Storage) (df : DataFrame) (x compression : String)
    (overwrite : Bool) (h : strEndsWith x ".parquet" = false) :
    ensure_parquet_ext (x ++ ".parquet") = ensure_parquet_ext x
    ∧ write_parquet st df (x ++ ".parquet") compression overwrite false "" =
        write_parquet st df x compression overwrite false ""
    ∧ (∀ p2, strEndsWith p2 ".parquet" = true → ensure_parquet_ext p2 = p2) := by
  have h1 : ensure_parquet_ext (x ++ ".parquet") = ensure_parquet_ext x := by
    rw [ensure_parquet_ext_append]
    unfold ensure_parquet_ext
    rw [if_neg (by simp [h])]
  refine ⟨h1, ?_, fun p2 hp2 => ensure_parquet_ext_of_endsWith hp2⟩
  simp only [write_parquet, h1]

theorem claim_C7_witness :
    strEndsWith "x" ".parquet" = false ∧
      ensure_parquet_ext ("x" ++ ".parquet") = ensure_parquet_ext "x" :=
  ⟨by decide, (claim_C7 [] ⟨[], []⟩ "x" "snappy" true (by decide)).1⟩

/-- C9: append's existence check runs on the caller's raw path while the
write goes to the extension-normalized path.  When a blob exists at
`p ++ ".parquet"` but not at the raw `p` (which lacks the extension), the
append takes the no-existing-data branch and overwrites the blob at
`p ++ ".parquet"` with only the new table's rows — the existing rows are
discarded, not concatenated. -/
theorem claim_C9 (st : Storage) (df existing : DataFrame) (p compression : String)
    (h1 : strEndsWith p ".parquet" = false)
    (h2 : st.lookup p = none)
    (h3 : st.lookup (p ++ ".parquet") = some existing) :
    append_parquet st df p compression =
      .ok (set_blob st (p ++ ".parquet") df, p ++ ".parquet")
    ∧ (set_blob st (p ++ ".parquet") df).lookup (p ++ ".parquet") = some df := by
  constructor
  · unfold append_parquet
    rw [h2]
    show write_parquet st df p compression true false "" = _
    rw [write_parquet_overwrite]
    unfold ensure_parquet_ext
    rw [if_neg (by simp [h1])]
  · exact lookup_set_blob_self st _ df

theorem claim_C9_witness :
    strEndsWith "p" ".parquet" = false ∧
      ([("p.parquet", (⟨["v"], [["old"]]⟩ : DataFrame))] : Storage).lookup "p" = none ∧
      ([("p.parquet", (⟨["v"], [["old"]]⟩ : DataFrame))] : Storage).lookup ("p" ++ ".parquet") =
        some ⟨["v"], [["old"]]⟩ ∧
      (set_blob [("p.parquet", ⟨["v"], [["old"]]⟩)] ("p" ++ ".parquet")
          ⟨["v"], [["new"]]⟩).lookup ("p" ++ ".parquet") = some ⟨["v"], [["new"]]⟩ :=
  ⟨by decide, by decide, by decide,
   (claim_C9 [("p.parquet", ⟨["v"], [["old"]]⟩)] ⟨["v"], [["new"]]⟩ ⟨["v"], [["old"]]⟩
     "p" "snappy" (by decide) (by decide) (by decide)).2⟩

/-- C3: for a table whose column names are distinct and whose rows align
with its header, and partition columns that are distinct, nonempty and all
present, a partitioned write performs exactly one blob write per distinct
key (the partition plan); the grouping is exhaustive and disjoint (the
group row lists concatenate to a permutation of the table's rows, so every
row lands in exactly one group); and re-augmenting any payload row of a
group's blob with the (column, value) pairs its blob path encodes — the
path is `base/c1=v1/.../data.parquet` for key (v1, ...), i.e. exactly
`pcols.zip key` — recovers the original row's record precisely. -/
theorem claim_C3 (st : Storage) (df : DataFrame) (base compression : String)
    (pcols : List String)
    (h_cols_nodup : df.cols.Nodup)
    (h_rows_len : ∀ r ∈ df.rows, r.length = df.cols.length)
    (h_sub : ∀ c ∈ pcols, c ∈ df.cols)
    (h_pcols_nodup : pcols.Nodup)
    (h_pcols_ne : pcols ≠ []) :
    write_parquet_partitioned st df base pcols compression true =
      .ok ((partition_plan df base pcols).foldl (fun s p => set_blob s p.1 p.2) st,
           (partition_plan df base pcols).map Prod.fst)
    ∧ ((group_keys df pcols).map (fun key => group_rows df pcols key)).flatten.Perm df.rows
    ∧ (∀ key ∈ group_keys df pcols, ∀ r ∈ group_rows df pcols key,
        row_rec (df.cols.filter (fun c => !pcols.contains c))
            (((df.cols.zip r).filter (fun q => !pcols.contains q.1)).map Prod.snd)
          + (↑(pcols.zip key) : Multiset (String × String)) = row_rec df.cols r) := by
  refine ⟨write_parquet_partitioned_eq st df base compression pcols h_sub h_pcols_ne, ?_, ?_⟩
  · unfold group_rows
    exact groups_flatten_perm (key_of df.cols pcols) (group_keys df pcols) df.rows
      (group_keys_nodup df pcols) (group_keys_complete df pcols)
  · intro key hkey r hr
    unfold group_rows at hr
    have hrmem := (List.mem_filter.mp hr).1
    have hrkey : key_of df.cols pcols r = key := eq_of_beq (List.mem_filter.mp hr).2
    exact row_record_split df.cols r pcols key h_cols_nodup h_pcols_nodup h_sub
      (h_rows_len r hrmem) hrkey

theorem claim_C3_witness :
    (DataFrame.mk ["year", "v"] [["2024", "30"], ["2023", "10"], ["2023", "20"]]).cols.Nodup ∧
    (∀ r ∈ (DataFrame.mk ["year", "v"] [["2024", "30"], ["2023", "10"], ["2023", "20"]]).rows,
      r.length = (DataFrame.mk ["year", "v"] [["2024", "30"], ["2023", "10"], ["2023", "20"]]).cols.length) ∧
    ((group_keys ⟨["year", "v"], [["2024", "30"], ["2023", "10"], ["2023", "20"]]⟩ ["year"]).map
      (fun key => group_rows ⟨["year", "v"], [["2024", "30"], ["2023", "10"], ["2023", "20"]]⟩
        ["year"] key)).flatten.Perm
      (DataFrame.mk ["year", "v"] [["2024", "30"], ["2023", "10"], ["2023", "20"]]).rows :=
  ⟨by decide, by decide,
   (claim_C3 [] ⟨["year", "v"], [["2024", "30"], ["2023", "10"], ["2023", "20"]]⟩ "base"
     "snappy" ["year"] (by decide) (by decide) (by decide) (by decide) (by decide)).2.1⟩

/-- C10: a partitioned write's URL list (and its order of blob writes)
follows the ascending sorted order of the distinct partition-key tuples —
`group_keys` is strictly ascending under the componentwise (tuple-wise)
string order — and that enumeration is independent of the order in which
the key combinations first appear among the rows: any row-permuted table
with the same header yields the identical key sequence. -/
theorem claim_C10 (st : Storage) (df df2 : DataFrame) (base compression : String)
    (pcols : List String)
    (h_sub : ∀ c ∈ pcols, c ∈ df.cols)
    (h_ne : pcols ≠ []) :
    (∃ st2, write_parquet_partitioned st df base pcols compression true =
        .ok (st2, (group_keys df pcols).map (partition_path base pcols)))
    ∧ List.Pairwise (fun a b => keyLt a b = true) (group_keys df pcols)
    ∧ (df2.cols = df.cols → df2.rows.Perm df.rows →
        group_keys df2 pcols = group_keys df pcols) := by
  refine ⟨?_, group_keys_strict_sorted df pcols,
    fun hc hp => group_keys_perm_invariant df df2 pcols hc hp⟩
  rw [write_parquet_partitioned_eq st df base compression pcols h_sub h_ne]
  refine ⟨List.foldl (fun s p => set_blob s p.1 p.2) st (partition_plan df base pcols), ?_⟩
  unfold partition_plan
  rw [List.map_map]
  rfl

theorem claim_C10_witness :
    (∀ c ∈ ["year"], c ∈ (DataFrame.mk ["year", "v"] [["2024", "30"], ["2023", "10"]]).cols) ∧
    (["year"] : List String) ≠ [] ∧
    group_keys ⟨["year", "v"], [["2023", "10"], ["2024", "30"]]⟩ ["year"] =
      group_keys ⟨["year", "v"], [["2024", "30"], ["2023", "10"]]⟩ ["year"] :=
  ⟨by decide, by decide,
   (claim_C10 [] ⟨["year", "v"], [["2024", "30"], ["2023", "10"]]⟩
     ⟨["year", "v"], [["2023", "10"], ["2024", "30"]]⟩ "base" "snappy" ["year"]
     (by decide) (by decide)).2.2 (by decide) (by decide)⟩

/-- C8, counterexample: zero-padding to 5 digits orders the chunk blob
names by index only below index 100000.  At the concrete indices 99999 and
100000, chunk 100000's blob name sorts lexically BEFORE chunk 99999's
(`'1' < '9'` at the first differing character), so for a table written with
write_parquet_chunked into 100001 or more chunks the blobs are not consumed
in ascending chunk-index order: read_parquet_chunked concatenates chunk
100000's rows before chunk 99999's, refuting the claim's "for every table
written with write_chunked". -/
theorem claim_C8_counterexample :
    strLt (chunk_blob_name "data" 100000) (chunk_blob_name "data" 99999) = true
    ∧ sortStrings [chunk_blob_name "data" 99999, chunk_blob_name "data" 100000]
        = [chunk_blob_name "data" 100000, chunk_blob_name "data" 99999]
    ∧ read_parquet_chunked
        [(chunk_blob_name "data" 99999, ⟨["v"], [["r99999"]]⟩),
         (chunk_blob_name "data" 100000, ⟨["v"], [["r100000"]]⟩)] "data" none =
      .ok ⟨["v"], [["r100000"], ["r99999"]]⟩ :=
  ⟨by decide, by decide, by decide⟩

/-- C8, amended: read_parquet_chunked lists the blobs under base_path
ending in the parquet extension, processes them sorted lexically, and
concatenates the decoded tables in that order; it fails (NotFound) when no
matching blob exists.  Because chunk indices are zero-padded to five
digits, chunk blob names ascend with the index for indices below 100000,
so for every nonempty table written with write_parquet_chunked into an
empty container with at most 100000 chunks, the blobs are consumed in
ascending chunk-index order and the read reconstructs the table's columns
and rows exactly. -/
theorem claim_C8_amended (df : DataFrame) (base compression : String) (k : Int)
    (hk : 0 < k)
    (hcnt : (df.rows.length + k.toNat - 1) / k.toNat ≤ 100000)
    (hnz : df.rows ≠ []) :
    (∀ i j : Nat, i < j → j < 100000 →
        strLt (chunk_blob_name base i) (chunk_blob_name base j) = true)
    ∧ read_parquet_chunked [] base none = .error (.notFound base)
    ∧ (∃ st2 urls, write_parquet_chunked [] df base k compression true = .ok (st2, urls)
        ∧ read_parquet_chunked st2 base none = .ok ⟨df.cols, df.rows⟩) := by
  refine ⟨fun i j h1 h2 => chunk_blob_name_mono base h1 h2, rfl, ?_⟩
  have hkk1 : 1 ≤ k.toNat := by omega
  have hrows1 : 0 < df.rows.length := List.length_pos.mpr hnz
  have hcnt1 : 1 ≤ (df.rows.length + k.toNat - 1) / k.toNat := by
    rw [Nat.le_div_iff_mul_le (by omega)]
    omega
  have hplan_names : (chunk_plan df base k.toNat).map Prod.fst =
      (List.range ((df.rows.length + k.toNat - 1) / k.toNat)).map (chunk_blob_name base) := by
    unfold chunk_plan
    rw [List.map_map]
    rfl
  have hmono : List.Pairwise (fun a b => strLt a b = true)
      ((chunk_plan df base k.toNat).map Prod.fst) := by
    rw [hplan_names, List.pairwise_map]
    apply (List.pairwise_lt_range _).imp_of_mem
    intro a b _ hb hab
    exact chunk_blob_name_mono base hab (lt_of_lt_of_le (List.mem_range.mp hb) hcnt)
  have hnodup : ((chunk_plan df base k.toNat).map Prod.fst).Nodup := by
    apply hmono.imp
    intro a b hab hcon
    rw [hcon, strLt_irrefl] at hab
    cases hab
  have hst2 : (chunk_plan df base k.toNat).foldl (fun s p => set_blob s p.1 p.2) [] =
      chunk_plan df base k.toNat := by
    rw [foldl_set_blob_fresh (chunk_plan df base k.toNat) [] (fun p _ => rfl) hnodup]
    rfl
  refine ⟨(chunk_plan df base k.toNat).foldl (fun s p => set_blob s p.1 p.2) [],
    (chunk_plan df base k.toNat).map Prod.fst,
    write_parquet_chunked_eq [] df base compression k hk, ?_⟩
  rw [hst2]
  have hlist : list_blobs (chunk_plan df base k.toNat) base =
      (chunk_plan df base k.toNat).map Prod.fst := by
    unfold list_blobs
    apply List.filter_eq_self.mpr
    intro b hb
    rw [hplan_names] at hb
    obtain ⟨i, _, hbi⟩ := List.mem_map.mp hb
    rw [← hbi]
    exact chunk_blob_name_startsWith base i
  have hfilter : ((chunk_plan df base k.toNat).map Prod.fst).filter
      (fun b => strEndsWith b ".parquet") = (chunk_plan df base k.toNat).map Prod.fst := by
    apply List.filter_eq_self.mpr
    intro b hb
    rw [hplan_names] at hb
    obtain ⟨i, _, hbi⟩ := List.mem_map.mp hb
    rw [← hbi]
    exact chunk_blob_name_endsWith base i
  have hsorted : sortStrings ((chunk_plan df base k.toNat).map Prod.fst) =
      (chunk_plan df base k.toNat).map Prod.fst := by
    apply sortStrings_of_sorted
    apply hmono.imp
    intro a b hab
    unfold strLeR strLe
    rw [strLt_asymm hab]
    rfl
  have hplan_ne : chunk_plan df base k.toNat ≠ [] := by
    unfold chunk_plan
    intro hcon
    have hlen := congrArg List.length hcon
    rw [List.length_map, List.length_range] at hlen
    simp at hlen
    omega
  have hconcat : pd_concat_all ((chunk_plan df base k.toNat).map Prod.snd) =
      ⟨df.cols, df.rows⟩ := by
    unfold pd_concat_all
    obtain ⟨c, hc⟩ : ∃ c, (df.rows.length + k.toNat - 1) / k.toNat = c + 1 :=
      ⟨(df.rows.length + k.toNat - 1) / k.toNat - 1, by omega⟩
    congr 1
    · rw [List.head?_map]
      unfold chunk_plan
      rw [hc, List.range_succ_eq_map, List.map_cons]
      rfl
    · show (List.map DataFrame.rows
          (List.map Prod.snd (chunk_plan df base k.toNat))).flatten = df.rows
      have hmaps : List.map DataFrame.rows (List.map Prod.snd (chunk_plan df base k.toNat))
          = (List.range ((df.rows.length + k.toNat - 1) / k.toNat)).map
              (fun i => (df.rows.drop (i * k.toNat)).take k.toNat) := by
        unfold chunk_plan
        rw [List.map_map, List.map_map]
        rfl
      rw [hmaps]
      exact chunk_cover k.toNat (by omega) df.rows.length df.rows rfl
  simp only [read_parquet_chunked]
  rw [hlist, hfilter, hsorted]
  rw [if_neg (by
    rw [List.isEmpty_iff]
    intro hcon
    exact hplan_ne (List.map_eq_nil.mp hcon))]
  rw [mapM_read_pairs (chunk_plan df base k.toNat) (chunk_plan df base k.toNat)
    (lookup_pairs_self (chunk_plan df base k.toNat) hnodup)]
  show Except.ok (pd_concat_all ((chunk_plan df base k.toNat).map Prod.snd)) = _
  rw [hconcat]

theorem claim_C8_amended_witness :
    (0 : Int) < 2 ∧
      ((DataFrame.mk ["a"] [["1"], ["2"], ["3"]]).rows.length + (2 : Int).toNat - 1) /
        (2 : Int).toNat ≤ 100000 ∧
      (DataFrame.mk ["a"] [["1"], ["2"], ["3"]]).rows ≠ [] ∧
      (∃ st2 urls,
        write_parquet_chunked [] ⟨["a"], [["1"], ["2"], ["3"]]⟩ "b" 2 "snappy" true =
          .ok (st2, urls)
        ∧ read_parquet_chunked st2 "b" none =
            .ok ⟨(DataFrame.mk ["a"] [["1"], ["2"], ["3"]]).cols,
                 (DataFrame.mk ["a"] [["1"], ["2"], ["3"]]).rows⟩) :=
  ⟨by decide, by decide, by decide,
   (claim_C8_amended ⟨["a"], [["1"], ["2"], ["3"]]⟩ "b" "snappy" 2
     (by decide) (by decide) (by decide)).2.2⟩

end PandasAzureWriter
